import Mathlib

/-!
# Verification of the tasm-lib core infrastructure

Shallow embedding of the parts of `tasm-lib` that the specification's claims
are about: the runtime bump allocator (`memory/dyn_malloc.rs`), the
import-deduplicating linker (`Library`, modelled from the spec since
`library.rs` is not among the provided sources), the list snippets
(`list/unsafeimplu32/new.rs`, `list/safeimplu32/pop.rs`), the equivalence
oracle checks (`test_helpers.rs`) and the u64 shift-right snippet
(`arithmetic/u64/shift_right_u64.rs`).

Machine words are elements of the prime field with modulus
`2^64 - 2^32 + 1`; they are modelled as natural numbers with explicit
`% bfieldP` where the code performs field arithmetic.
-/

namespace TasmLib

/-- The modulus of the VM's base field (`BFieldElement`): `2^64 - 2^32 + 1`. -/
def bfieldP : Nat := 2 ^ 64 - 2 ^ 32 + 1

/-- `DYN_MALLOC_ADDRESS` from `memory/dyn_malloc.rs`: the allocator cell
lives at address 0. -/
def dynMallocAddress : Nat := 0

/-- `DIGEST_LENGTH`: the width in words of a hash digest, and the length of
the program-identity prefix that the oracle skips when comparing stacks. -/
def digestLength : Nat := 5

/-! ## Dynamic allocator (`DynMalloc`, memory/dyn_malloc.rs)

`rust_shadowing` (lines 132-160): read the allocator cell (an absent entry
counts as 0); substitute 1 for the zero sentinel; abort unless the requested
`size` is below `2^32`; bump the cell by `size` (field addition); abort
unless the new cell value is below `2^32`; return the pre-bump value.
`function_code` (lines 60-106) performs the same checks with `split`-based
range assertions on the field values.  An `assert` failure halts the whole
machine; it is modelled as `none`. -/

/-- One `allocate(size)` call.  `cell` is the current content of the
allocator cell (0 when absent/uninitialized); returns
`(granted base address, new cell content)` or `none` on abort. -/
def dynMalloc (cell size : Nat) : Option (Nat × Nat) :=
  let current := if cell = 0 then 1 else cell
  if size < 2 ^ 32 then
    let next := (current + size) % bfieldP
    if next < 2 ^ 32 then some (current, next) else none
  else none

/-- A sequence of `allocate` calls within one execution: returns the list of
granted base addresses and the final allocator-cell content. -/
def allocRun (cell : Nat) : List Nat → Option (List Nat × Nat)
  | [] => some ([], cell)
  | size :: rest =>
    match dynMalloc cell size with
    | none => none
    | some (base, next) =>
      match allocRun next rest with
      | none => none
      | some (bases, final) => some (base :: bases, final)

/-- `DynMalloc` at stack level: pops `size`, pushes the granted address
(stack head = top of stack). -/
def dynMallocStack (cell : Nat) : List Nat → Option (List Nat × Nat)
  | [] => none
  | size :: rest =>
    match dynMalloc cell size with
    | none => none
    | some (base, next) => some (base :: rest, next)

/-! ## Value types and snippet signatures

The concrete word widths of `DataType::get_size` live in `snippet.rs`,
which is not among the provided sources.  Modelled from the spec: scalars
and booleans are one word, wide integers a fixed small width (a u64 is two
u32 limbs, cf. `shift_right_u64.rs`), a digest is `DIGEST_LENGTH = 5` words
(spec scenario: "element width 5 (a digest)"), an extension-field element
is 3 words, and a list value on the stack is its one-word base pointer. -/

/-- The value types used by the embedded snippets. -/
inductive DataType where
  | bool
  | u32
  | u64
  | bfe
  | xfe
  | digest
  | list (elem : DataType)
deriving DecidableEq

/-- Modelled from the spec: `DataType::get_size`, the fixed word width of a
value of the given type (`snippet.rs` is not among the provided sources). -/
def DataType.get_size : DataType → Nat
  | .bool => 1
  | .u32 => 1
  | .bfe => 1
  | .u64 => 2
  | .xfe => 3
  | .digest => 5
  | .list _ => 1

/-- Total word width of a list of declared value types. -/
def widthSum (ts : List DataType) : Nat := (ts.map DataType.get_size).sum

/-- A snippet's declared stack interface: input types, output types and the
declared net stack growth `stack_diff`. -/
structure SnippetSig where
  inputTypes : List DataType
  outputTypes : List DataType
  stackDiff : Int
deriving DecidableEq

/-- The declaration check of `link_and_run_tasm_for_test_deprecated`
(test_helpers.rs lines 122-136): the declared `stack_diff` must equal the
sum of output widths minus the sum of input widths. -/
def checkStackDiffDeclaration (s : SnippetSig) : Bool :=
  s.stackDiff == (widthSum s.outputTypes : Int) - (widthSum s.inputTypes : Int)

/-- `verify_stack_growth` (test_helpers.rs lines 487-501): the observed
final-stack length minus the initial-stack length must equal the declared
`stack_diff`. -/
def verifyStackGrowth (declaredDiff : Int) (initLen finalLen : Nat) : Bool :=
  (finalLen : Int) - (initLen : Int) == declaredDiff

/-- `DynMalloc`: inputs `[U32]`, outputs `[U32]`, `stack_diff` 0. -/
def dynMallocSig : SnippetSig := ⟨[.u32], [.u32], 0⟩

/-- `UnsafeNew`: inputs `[U32]`, outputs `[List T]`, `stack_diff` 0. -/
def unsafeNewSig (t : DataType) : SnippetSig := ⟨[.u32], [.list t], 0⟩

/-- `SafePop`: inputs `[List T]`, outputs `[T]`, `stack_diff` `size - 1`. -/
def safePopSig (t : DataType) : SnippetSig :=
  ⟨[.list t], [t], (t.get_size : Int) - 1⟩

/-- `SafeLength`: inputs `[List T]`, outputs `[U32]`, `stack_diff` 0. -/
def safeLengthSig (t : DataType) : SnippetSig := ⟨[.list t], [.u32], 0⟩

/-- `ShiftRightU64`: inputs `[U64, U32]`, outputs `[U64]`, `stack_diff` -1. -/
def shiftRightU64Sig : SnippetSig := ⟨[.u64, .u32], [.u64], -1⟩

/-- `U32IsOdd`: pops a u32, pushes a bool, `stack_diff` 0. -/
def isOddSig : SnippetSig := ⟨[.u32], [.bool], 0⟩

/-- `ReadStdin`: inputs `[]`, outputs `[T]`, `stack_diff` `size`. -/
def readStdinSig (t : DataType) : SnippetSig := ⟨[], [t], (t.get_size : Int)⟩

/-- `GetHeightFromDataIndex`: inputs `[U64]`, outputs `[U32]`, diff -1. -/
def getHeightFromDataIndexSig : SnippetSig := ⟨[.u64], [.u32], -1⟩

/-- `MmrLeftMostAncestor`: inputs `[U64]`, outputs `[U64, U32]`, diff 1. -/
def leftmostAncestorSig : SnippetSig := ⟨[.u64], [.u64, .u32], 1⟩

/-- `MmrRightChildAndHeight`: inputs `[U64]`, outputs `[Bool, U32]`, diff 0. -/
def rightChildAndHeightSig : SnippetSig := ⟨[.u64], [.bool, .u32], 0⟩

/-- `MmrNonLeafNodesLeft`: inputs `[U64]`, outputs `[U64]`, diff 0. -/
def nonLeafNodesLeftSig : SnippetSig := ⟨[.u64], [.u64], 0⟩

/-! ## Safe list pop (`SafePop`, list/safeimplu32/pop.rs)

`function_code` (lines 63-132), with `w` the element width and `B` the list
pointer: read the length `L` at `B`; assert `L ≠ 0`; write `L - 1` (field
subtraction) back to `B`; compute the address `B + w·L + 1` (field
arithmetic) of the last word of the last element; read `w` words downwards
from there; the only memory write is the length word at `B`. -/

/-- The element-read loop of `SafePop`: read `n` words starting at address
`a` going downwards (`push -1, add` is field subtraction by one).  The head
of the returned list is the word read first, i.e. the one at `a`. -/
def readElems (mem : Nat → Nat) (a : Nat) : Nat → List Nat
  | 0 => []
  | n + 1 => mem a :: readElems mem ((a + (bfieldP - 1)) % bfieldP) n

/-- `SafePop::function_code` for element width `w` on list pointer `B`:
returns the words of the popped element (first-read word first) and the
updated memory, or `none` when the in-code `assert` on a zero length fails
(which halts the whole machine). -/
def safePop (w B : Nat) (mem : Nat → Nat) : Option (List Nat × (Nat → Nat)) :=
  let L := mem B
  if L = 0 then none
  else
    let mem' := fun a => if a = B then (L + (bfieldP - 1)) % bfieldP else mem a
    let addrTop := (B + (w * L) % bfieldP + 1) % bfieldP
    some (readElems mem addrTop w, mem')

/-- Modelled from the spec: the reference helper `safe_list_pop` from
`rust_shadowing_helper_functions.rs`, which is not among the provided
sources.  Per spec section 7, "underflow of an empty container" is a fatal
precondition violation, and the `should_panic` tests
`panic_if_pop_on_empty_list_*` in pop.rs expect the reference implementation
to fail on a zero-length list; otherwise it decrements the stored length and
returns the last element's words. -/
def safeListPopRef (w B : Nat) (mem : Nat → Nat) : Option (List Nat × (Nat → Nat)) :=
  let L := mem B
  if L = 0 then none
  else
    let mem' := fun a => if a = B then L - 1 else mem a
    some (readElems mem (B + w * L + 1) w, mem')

/-! ## Unsafe list new (`UnsafeNew`, list/unsafeimplu32/new.rs)

`function_code` (lines 40-79): multiply the requested capacity by the
element width (field multiplication), add one word for the length, allocate
that many words via `DynMalloc`, and write initial length 0 at the returned
base. -/

/-- `UnsafeNew::function_code` for element width `w`: returns
`(list pointer, new allocator cell, updated memory)` or `none` when the
allocation aborts. -/
def unsafeNew (w cap cell : Nat) (mem : Nat → Nat) :
    Option (Nat × Nat × (Nat → Nat)) :=
  let size := ((w * cap) % bfieldP + 1) % bfieldP
  match dynMalloc cell size with
  | none => none
  | some (base, next) => some (base, next, fun a => if a = base then 0 else mem a)

/-- `SafePop` at stack level: pops the list pointer, pushes the `w` element
words (stack head = top of stack). -/
def safePopStack (w : Nat) (mem : Nat → Nat) : List Nat → Option (List Nat × (Nat → Nat))
  | [] => none
  | b :: rest =>
    match safePop w b mem with
    | none => none
    | some (elems, mem') => some (elems.reverse ++ rest, mem')

/-! ## u64 shift right (`ShiftRightU64`, arithmetic/u64/shift_right_u64.rs)

`function_body` (lines 53-130): assert `shift < 64`; when `shift > 32`,
first reduce by 32 via `_handle_hi_shift`, which re-enters the entrypoint
with shift amount 32; the straight-line part multiplies each limb by
`2^(32 - shift)` (field multiplication) and recombines the `split` halves. -/

/-- The straight-line part of `ShiftRightU64::function_body`, reached only
with `shift ≤ 32`: limb-wise multiplication by `2^(32 - shift)` followed by
`split` and recombination (all field arithmetic). -/
def shiftRightBody (hi lo shift : Nat) : Nat × Nat :=
  let pow2 := 2 ^ (32 - shift)
  let prodLo := (lo * pow2) % bfieldP
  let lowPart := prodLo / 2 ^ 32
  let prodHi := (hi * pow2) % bfieldP
  let hiOut := prodHi / 2 ^ 32
  let carry := prodHi % 2 ^ 32
  (hiOut, (carry + lowPart) % bfieldP)

/-- `ShiftRightU64` on a u64 given as limbs `(hi, lo)` and a shift amount:
`none` models the `assert` failure for `shift ≥ 64`; for `shift > 32` the
code first shifts by 32 (via the recursive entrypoint call in
`_handle_hi_shift`) and then by `shift - 32`. -/
def shiftRightU64 (hi lo shift : Nat) : Option (Nat × Nat) :=
  if shift < 64 then
    if 32 < shift then
      some (shiftRightBody (shiftRightBody hi lo 32).1
        (shiftRightBody hi lo 32).2 (shift - 32))
    else some (shiftRightBody hi lo shift)
  else none

/-- `ShiftRightU64` at stack level: pops `shift`, `lo`, `hi` (stack head =
top of stack), pushes the result limbs with `lo` on top. -/
def shiftRightU64Stack : List Nat → Option (List Nat)
  | shift :: lo :: hi :: rest =>
    match shiftRightU64 hi lo shift with
    | none => none
    | some (hi', lo') => some (lo' :: hi' :: rest)
  | _ => none

/-! ## Equivalence-oracle comparisons (test_helpers.rs)

`test_rust_equivalence_given_complete_state` (lines 506-552) compares the
output streams, the final stacks modulo the `DIGEST_LENGTH` program-hash
prefix (`verify_stack_equivalence`), the final memories modulo the
allocator cell (`verify_memory_equivalence`), and the observed stack growth
against the declared `stack_diff` (`verify_stack_growth`).  Memory maps are
modelled as association lists without duplicate keys. -/

/-- The sponge/hasher register state (`VmHasherState`). -/
structure SpongeState where
  state : List Nat
deriving DecidableEq

/-- A final machine state as returned by a run (`VmOutputState`). -/
structure VmOutState where
  output : List Nat
  finalStack : List Nat
  finalRam : List (Nat × Nat)
  finalSponge : SpongeState
deriving DecidableEq

/-- Lookup in an association-list memory map. -/
def memLookup (m : List (Nat × Nat)) (k : Nat) : Option Nat :=
  (m.find? (fun kv => kv.1 == k)).map (fun kv => kv.2)

/-- `verify_stack_equivalence` (lines 416-435): stacks must agree after
dropping the `DIGEST_LENGTH`-word program-hash prefix. -/
def verifyStackEquivalence (a b : List Nat) : Bool :=
  a.drop digestLength == b.drop digestLength

/-- `verify_memory_equivalence` (lines 437-481): collect every key whose
value differs between the two maps (in either direction) and fail if any
differing key is not the allocator cell `DYN_MALLOC_ADDRESS`. -/
def verifyMemoryEquivalence (a b : List (Nat × Nat)) : Bool :=
  ((a.filter (fun kv => memLookup b kv.1 != some kv.2)) ++
    (b.filter (fun kv => memLookup a kv.1 != some kv.2))).all
    (fun kv => kv.1 == dynMallocAddress)

/-- `verify_hasher_state_equivalence` (lines 483-485): the two final sponge
states must be equal.  Defined in test_helpers.rs but never invoked. -/
def verifyHasherStateEquivalence (a b : VmOutState) : Bool :=
  a.finalSponge.state == b.finalSponge.state

/-- The complete set of comparisons performed by
`test_rust_equivalence_given_complete_state` (lines 506-552) on a reference
final state `rust` and a VM final state `tasm`: output streams, stacks
modulo the program-hash prefix, memories modulo the allocator cell, and
stack growth.  No sponge-state comparison appears in the source. -/
def oracleChecksPass (declaredDiff : Int) (initLen : Nat)
    (rust tasm : VmOutState) : Bool :=
  (rust.output == tasm.output) &&
    verifyStackEquivalence rust.finalStack tasm.finalStack &&
    verifyMemoryEquivalence rust.finalRam tasm.finalRam &&
    verifyStackGrowth declaredDiff initLen tasm.finalStack.length

/-- A concrete reference-run final state: empty output, a five-word
program-hash prefix on the stack, empty memory, sponge state all zeros. -/
def rustDemoState : VmOutState :=
  ⟨[], [7, 7, 7, 7, 7], [], ⟨[0, 0, 0, 0, 0]⟩⟩

/-- A concrete VM-run final state identical to `rustDemoState` except for
the sponge state. -/
def tasmDemoState : VmOutState :=
  ⟨[], [9, 9, 9, 9, 9], [], ⟨[1, 0, 0, 0, 0]⟩⟩

/-! ## The linker (`Library`)

Modelled from the spec: `library.rs` is not among the provided sources;
only its callers are (test_helpers.rs, compiled_program.rs, the snippets'
`library.import(...)` requests).  Spec section 4.4: the state is an import
table from snippet identity to assigned label plus an accumulator of
emitted bodies; `import` returns the recorded label on a hit without
re-invoking the generator; on a miss it records the fresh label *before*
invoking the generator (so recursive snippets can call their own label),
lets the generator import transitively, then appends the body.  A snippet's
generator run is represented by its finite tree of import requests.  Each
emitted body is identified by its snippet identity. -/

/-- The tree of import requests one `import` call triggers: the requested
snippet identity and, should the generator run, the requests it makes. -/
inductive SnippetTree where
  | node (ident : String) (deps : List SnippetTree)

/-- The identity at the root of a request tree. -/
def SnippetTree.rootIdent : SnippetTree → String
  | .node i _ => i

/-- Linker state: the import table (identity, label) in insertion order and
the emitted bodies (by identity) in emission order. -/
structure LibState where
  table : List (String × String)
  bodies : List String
deriving DecidableEq

/-- The linker state of a fresh `Library`. -/
def emptyLib : LibState := ⟨[], []⟩

/-- Modelled from the spec: the label is a deterministic function of the
snippet identity (the derived entrypoint name). -/
def labelOf (ident : String) : String := ident

/-- Lookup of an identity in the import table. -/
def lookupLabel : List (String × String) → String → Option String
  | [], _ => none
  | (i, l) :: rest, ident => if i = ident then some l else lookupLabel rest ident

mutual

/-- Modelled from the spec: one `import` call (spec section 4.4).  Returns
the new state, the returned label and the log of all (identity, label)
pairs of import calls made, this one included. -/
def libImport (st : LibState) : SnippetTree → LibState × String × List (String × String)
  | .node ident deps =>
    match lookupLabel st.table ident with
    | some lbl => (st, lbl, [(ident, lbl)])
    | none =>
      let lbl := labelOf ident
      let st1 : LibState := ⟨st.table ++ [(ident, lbl)], st.bodies⟩
      let r := libImportList st1 deps
      (⟨r.1.table, r.1.bodies ++ [ident]⟩, lbl, (ident, lbl) :: r.2)

/-- Modelled from the spec: a sequence of `import` calls, left to right. -/
def libImportList (st : LibState) : List SnippetTree → LibState × List (String × String)
  | [] => (st, [])
  | t :: ts =>
    let r1 := libImport st t
    let r2 := libImportList r1.1 ts
    (r2.1, r1.2.2 ++ r2.2)

end

/-- The spec's concrete scenario (section 8): snippet `A` imports `B`, and
`B` is separately imported directly. -/
def demoForest : List SnippetTree :=
  [.node "A" [.node "B" []], .node "B" []]

/-- Import-table soundness: every recorded label is the label derived from
its identity. -/
def tableOk (st : LibState) : Prop :=
  ∀ p ∈ st.table, p.2 = labelOf p.1

/-- Body-accumulator soundness: bodies are pairwise distinct and every
emitted body's identity is in the import table. -/
def bodiesOk (st : LibState) : Prop :=
  st.bodies.Nodup ∧ ∀ b ∈ st.bodies, lookupLabel st.table b ≠ none

/-! ## Concrete memories for witnesses and counterexamples -/

/-- A safe list of 3 elements of width 5 at base address 100: length 3 at
address 100, capacity 30 at 101, element words at 102-116 holding
`1000 + address` as marker values; all other cells 0. -/
def demoSafeListMem : Nat → Nat := fun a =>
  if a = 100 then 3
  else if a = 101 then 30
  else if 102 ≤ a ∧ a ≤ 116 then 1000 + a
  else 0

/-- A safe list of width 1 with stored length 0 at base address 50
(capacity 7 at address 51). -/
def demoEmptyListMem : Nat → Nat := fun a =>
  if a = 50 then 0
  else if a = 51 then 7
  else 0

/-- The element words produced by popping the demo safe list. -/
def demoPoppedElems : List Nat :=
  readElems demoSafeListMem ((100 + (5 * 3) % bfieldP + 1) % bfieldP) 5

/-- The memory left behind by popping the demo safe list. -/
def demoPoppedMem : Nat → Nat := fun a =>
  if a = 100 then (3 + (bfieldP - 1)) % bfieldP else demoSafeListMem a

/-! ## Basic facts about the field modulus -/

theorem bfieldP_eq : bfieldP = 18446744069414584321 := by norm_num [bfieldP]

theorem bfieldP_pos : 0 < bfieldP := by rw [bfieldP_eq]; norm_num

/-! ## Allocator lemmas -/

theorem dynMalloc_eq_none (cell size : Nat) :
    dynMalloc cell size = none ↔
      2 ^ 32 ≤ size ∨
        2 ^ 32 ≤ ((if cell = 0 then 1 else cell) + size) % bfieldP := by
  simp only [dynMalloc]
  split_ifs with h1 h2 <;> simp <;> omega

theorem dynMalloc_some (cell size base next : Nat) (hc : cell < 2 ^ 32)
    (h : dynMalloc cell size = some (base, next)) :
    base = (if cell = 0 then 1 else cell) ∧ next = base + size ∧
      next < 2 ^ 32 ∧ 0 < base ∧ size < 2 ^ 32 := by
  have hcur1 : 0 < (if cell = 0 then 1 else cell) := by
    split_ifs with hz
    · omega
    · exact Nat.pos_of_ne_zero hz
  have hcur2 : (if cell = 0 then 1 else cell) < 2 ^ 32 := by
    split_ifs <;> omega
  simp only [dynMalloc] at h
  generalize hg : (if cell = 0 then 1 else cell) = cur at h hcur1 hcur2 ⊢
  split_ifs at h with h1 h2
  · have hmod : (cur + size) % bfieldP = cur + size := by
      apply Nat.mod_eq_of_lt
      rw [bfieldP_eq]
      omega
    rw [hmod] at h h2
    simp only [Option.some.injEq, Prod.mk.injEq] at h
    obtain ⟨hb, hn⟩ := h
    refine ⟨hb.symm, ?_, by omega, by omega, h1⟩
    rw [← hn, ← hb]

theorem dynMalloc_some_of (cell size : Nat) (hc : cell < 2 ^ 32)
    (hs : size < 2 ^ 32)
    (hn : (if cell = 0 then 1 else cell) + size < 2 ^ 32) :
    dynMalloc cell size =
      some ((if cell = 0 then 1 else cell),
        (if cell = 0 then 1 else cell) + size) := by
  have hmod : ((if cell = 0 then 1 else cell) + size) % bfieldP
      = (if cell = 0 then 1 else cell) + size := by
    apply Nat.mod_eq_of_lt
    rw [bfieldP_eq]
    split_ifs <;> omega
  simp only [dynMalloc, hmod]
  rw [if_pos hs, if_pos hn]

/-- Successful cons-runs decompose into one allocation and a tail run. -/
theorem allocRun_cons_elim (cell s : Nat) (rest bases : List Nat)
    (final : Nat) (h : allocRun cell (s :: rest) = some (bases, final)) :
    ∃ base next tl, dynMalloc cell s = some (base, next) ∧
      allocRun next rest = some (tl, final) ∧ bases = base :: tl := by
  simp only [allocRun] at h
  split at h
  · exact Option.noConfusion h
  next base next' heq =>
    split at h
    · exact Option.noConfusion h
    next tl f heq2 =>
      simp only [Option.some.injEq, Prod.mk.injEq] at h
      exact ⟨base, next', tl, heq, by rw [heq2, h.2], h.1.symm⟩

/-- Core invariants of a successful allocation run starting from a
below-range cell: final cell in range, cell growth, every granted range
within `[current, final)`. -/
theorem allocRun_facts (sizes : List Nat) : ∀ cell bases final,
    cell < 2 ^ 32 →
    allocRun cell sizes = some (bases, final) →
    final < 2 ^ 32 ∧ cell ≤ final ∧
      (sizes = [] → final = cell) ∧
      (sizes ≠ [] → (if cell = 0 then 1 else cell) ≤ final ∧ 0 < final) ∧
      (∀ p ∈ bases.zip sizes,
        (if cell = 0 then 1 else cell) ≤ p.1 ∧ p.1 + p.2 ≤ final) := by
  induction sizes with
  | nil =>
    intro cell bases final hc h
    simp only [allocRun, Option.some.injEq, Prod.mk.injEq] at h
    obtain ⟨h1, h2⟩ := h
    subst h2
    refine ⟨hc, le_refl _, fun _ => rfl, fun hne => absurd rfl hne, ?_⟩
    intro p hp
    rw [← h1] at hp
    simp at hp
  | cons s rest ih =>
    intro cell bases final hc h
    obtain ⟨base, next, tl, hdm, hrest, hb⟩ :=
      allocRun_cons_elim cell s rest bases final h
    obtain ⟨hbase, hnext, hnlt, hbpos, hslt⟩ :=
      dynMalloc_some cell s base next hc hdm
    obtain ⟨hf1, hf2, _, _, hf5⟩ := ih next tl final hnlt hrest
    have hcur : cell ≤ (if cell = 0 then 1 else cell) := by
      split_ifs <;> omega
    refine ⟨hf1, by omega, by simp, fun _ => ⟨by omega, by omega⟩, ?_⟩
    intro pr hpr
    rw [hb] at hpr
    simp only [List.zip_cons_cons, List.mem_cons] at hpr
    rcases hpr with hpr | hpr
    · subst hpr
      exact ⟨by omega, by omega⟩
    · have hmem := hf5 pr hpr
      have hple : (if next = 0 then 1 else next) = next := by
        split_ifs <;> omega
      rw [hple] at hmem
      exact ⟨by omega, hmem.2⟩

/-- Strict increase and range disjointness for positive-size runs. -/
theorem allocRun_chain_pairwise (sizes : List Nat) : ∀ cell bases final,
    cell < 2 ^ 32 → (∀ s ∈ sizes, 0 < s) →
    allocRun cell sizes = some (bases, final) →
    List.Chain' (fun a b => a < b) bases ∧
      (bases.zip sizes).Pairwise (fun p q => p.1 + p.2 ≤ q.1) := by
  induction sizes with
  | nil =>
    intro cell bases final hc _ h
    simp only [allocRun, Option.some.injEq, Prod.mk.injEq] at h
    rw [← h.1]
    exact ⟨List.chain'_nil, List.Pairwise.nil⟩
  | cons s rest ih =>
    intro cell bases final hc hpos h
    obtain ⟨base, next, tl, hdm, hrest, hb⟩ :=
      allocRun_cons_elim cell s rest bases final h
    obtain ⟨hbase, hnext, hnlt, hbpos, hslt⟩ :=
      dynMalloc_some cell s base next hc hdm
    have hspos : 0 < s := hpos s (List.mem_cons_self s rest)
    have htposr : ∀ x ∈ rest, 0 < x := fun x hx =>
      hpos x (List.mem_cons_of_mem s hx)
    obtain ⟨hchain, hpair⟩ := ih next tl final hnlt htposr hrest
    obtain ⟨hfin1, _, _, _, hzip⟩ := allocRun_facts rest next tl final hnlt hrest
    have hple : (if next = 0 then 1 else next) = next := by
      split_ifs <;> omega
    rw [hple] at hzip
    subst hb
    constructor
    · cases rest with
      | nil =>
        simp only [allocRun, Option.some.injEq, Prod.mk.injEq] at hrest
        rw [← hrest.1]
        simp
      | cons s2 rest2 =>
        obtain ⟨b2, n2, tl2, hdm2, hrest2, hb2⟩ :=
          allocRun_cons_elim next s2 rest2 tl final hrest
        obtain ⟨hbase2, _, _, _, _⟩ := dynMalloc_some next s2 b2 n2 hnlt hdm2
        rw [hb2]
        rw [hb2] at hchain
        refine List.chain'_cons.mpr ⟨?_, hchain⟩
        rw [hbase2, hple]
        omega
    · rw [List.zip_cons_cons]
      refine List.pairwise_cons.mpr ⟨?_, hpair⟩
      intro q hq
      have := hzip q hq
      omega

/-! ## C2: allocator boundary behavior -/

/-- C2: `allocate(size)` aborts exactly when `size` or the bumped cell
value (computed in field arithmetic) does not fit the native unsigned
32-bit word-count range, and succeeds returning the current free address
when the bumped value is exactly the largest representable word count
`2^32 - 1`. -/
theorem dyn_malloc_boundary (cell size : Nat) :
    (dynMalloc cell size = none ↔
        2 ^ 32 ≤ size ∨
          2 ^ 32 ≤ ((if cell = 0 then 1 else cell) + size) % bfieldP) ∧
      (size < 2 ^ 32 →
        ((if cell = 0 then 1 else cell) + size) % bfieldP = 2 ^ 32 - 1 →
        dynMalloc cell size =
          some ((if cell = 0 then 1 else cell), 2 ^ 32 - 1)) := by
  refine ⟨dynMalloc_eq_none cell size, ?_⟩
  intro hs hmod
  simp only [dynMalloc, hmod]
  rw [if_pos hs, if_pos (by omega)]

/-- C2 witness: from an uninitialized cell, requesting `2^32 - 2` words
lands the cell exactly on the boundary `2^32 - 1` and succeeds. -/
theorem dyn_malloc_boundary_witness :
    dynMalloc 0 (2 ^ 32 - 2) = some (1, 2 ^ 32 - 1) :=
  (dyn_malloc_boundary 0 (2 ^ 32 - 2)).2 (by norm_num)
    (by rw [bfieldP_eq]; norm_num)

/-! ## C3: zero sentinel and first free address -/

/-- C3: a successful `allocate` never returns address 0, and from the zero
sentinel (or absent cell, modelled as 0) it returns address 1; allocating
sizes 10 then 1 from empty memory returns bases 1 and 11 and leaves the
cell at 12. -/
theorem dyn_malloc_zero_sentinel :
    (∀ cell size base next, dynMalloc cell size = some (base, next) →
        0 < base ∧ (cell = 0 → base = 1)) ∧
      allocRun 0 [10, 1] = some ([1, 11], 12) := by
  constructor
  · intro cell size base next h
    simp only [dynMalloc] at h
    by_cases hc : cell = 0
    · rw [if_pos hc] at h
      split_ifs at h with h1 h2
      simp only [Option.some.injEq, Prod.mk.injEq] at h
      exact ⟨by omega, fun _ => h.1.symm⟩
    · rw [if_neg hc] at h
      split_ifs at h with h1 h2
      simp only [Option.some.injEq, Prod.mk.injEq] at h
      obtain ⟨hb, _⟩ := h
      exact ⟨by omega, fun h0 => absurd h0 hc⟩
  · decide

/-- C3 witness: the no-zero-address fact applied to the concrete
allocation of 10 words from the zero sentinel. -/
theorem dyn_malloc_zero_sentinel_witness :
    0 < 1 ∧ ((0 : Nat) = 0 → 1 = 1) :=
  dyn_malloc_zero_sentinel.1 0 10 1 11 (by decide)

/-! ## C4: allocator monotonicity (corrected)

The claim quantifies over every sequence of `allocate(size)` calls, but
`allocate(0)` is accepted by the code (`0 < 2^32`) and returns the same
base twice, so "strictly increasing" fails for zero-size requests. -/

/-- C4 counterexample: two `allocate(0)` calls from an empty allocator both
succeed and both return base address 1, so the returned base addresses of
an arbitrary non-aborting sequence are not strictly increasing. -/
theorem alloc_monotonicity_counterexample :
    allocRun 0 [0, 0] = some ([1, 1], 1) ∧
      ¬ List.Chain' (fun a b => a < b) [1, 1] := by
  constructor
  · decide
  · simp [List.chain'_cons]

/-- C4 amended: for any non-aborting sequence of `allocate(size)` calls,
when every requested size is positive the returned base addresses are
strictly increasing and the granted ranges `[base, base + size)` are
pairwise non-overlapping; and — even without positivity, zero sizes
included — after the first call the allocator cell never holds the zero
sentinel. -/
theorem alloc_monotonicity_amended (cell : Nat) (sizes bases : List Nat)
    (final : Nat) (hcell : cell < 2 ^ 32)
    (hrun : allocRun cell sizes = some (bases, final)) :
    ((∀ s ∈ sizes, 0 < s) →
        List.Chain' (fun a b => a < b) bases ∧
          (bases.zip sizes).Pairwise (fun p q => p.1 + p.2 ≤ q.1)) ∧
      (∀ k, 0 < k → k ≤ sizes.length → ∀ bs f,
        allocRun cell (sizes.take k) = some (bs, f) → f ≠ 0) := by
  constructor
  · intro hpos
    exact allocRun_chain_pairwise sizes cell bases final hcell hpos hrun
  · intro k hk hklen bs f htake
    have hne : sizes.take k ≠ [] := by
      intro habs
      have : (sizes.take k).length = 0 := by rw [habs]; rfl
      rw [List.length_take] at this
      omega
    obtain ⟨_, _, _, hfacts, _⟩ :=
      allocRun_facts (sizes.take k) cell bs f hcell htake
    have := (hfacts hne).2
    omega

/-- C4 witness: allocating sizes 3 then 4 from the zero sentinel yields the
strictly increasing bases 1 and 4 with disjoint ranges and a nonzero cell
after the first call; a run of two zero-size requests also leaves the cell
nonzero after its first call. -/
theorem alloc_monotonicity_amended_witness :
    (List.Chain' (fun a b => a < b) [1, 4] ∧
        ([(1, 3), (4, 4)] : List (Nat × Nat)).Pairwise
          (fun p q => p.1 + p.2 ≤ q.1)) ∧
      (4 : Nat) ≠ 0 ∧ (1 : Nat) ≠ 0 := by
  have h := alloc_monotonicity_amended 0 [3, 4] [1, 4] 8 (by norm_num)
    (by decide)
  have h0 := alloc_monotonicity_amended 0 [0, 0] [1, 1] 1 (by norm_num)
    (by decide)
  exact ⟨h.1 (by decide),
    h.2 1 (by norm_num) (by norm_num) [1] 4 (by decide),
    h0.2 1 (by norm_num) (by norm_num) [1] 1 (by decide)⟩

/-! ## Lemmas about the element-read loop -/

theorem readElems_length (mem : Nat → Nat) : ∀ n a,
    (readElems mem a n).length = n := by
  intro n
  induction n with
  | zero => intro a; rfl
  | succ k ih => intro a; simp [readElems, ih]

theorem readElems_eq_map (mem : Nat → Nat) : ∀ n a, n ≤ a → a < bfieldP →
    readElems mem a n = (List.range n).map (fun i => mem (a - i)) := by
  intro n
  induction n with
  | zero => intro a _ _; simp [readElems]
  | succ k ih =>
    intro a hn hlt
    have hp := bfieldP_pos
    have hdec : (a + (bfieldP - 1)) % bfieldP = a - 1 := by
      have h2 : a + (bfieldP - 1) = (a - 1) + bfieldP := by omega
      rw [h2, Nat.add_mod_right, Nat.mod_eq_of_lt (by omega)]
    have hfun : ((fun i => mem (a - i)) ∘ Nat.succ)
        = fun i => mem (a - 1 - i) := by
      funext i
      simp only [Function.comp_apply]
      have h3 : a - (i + 1) = a - 1 - i := by omega
      rw [Nat.succ_eq_add_one, h3]
    rw [readElems, hdec, ih (a - 1) (by omega) (by omega),
      List.range_succ_eq_map]
    simp only [List.map_cons, Nat.sub_zero, List.map_map, hfun]

/-! ## C8: popping an empty safe list aborts -/

/-- C8: for every element width, running the safe-list pop code on a list
whose stored length word is 0 makes the in-code `assert` fail, aborting the
whole machine execution (`none`), and the reference implementation fails on
the same input. -/
theorem safe_pop_empty_aborts (w B : Nat) (mem : Nat → Nat)
    (h : mem B = 0) :
    safePop w B mem = none ∧ safeListPopRef w B mem = none := by
  constructor <;> simp [safePop, safeListPopRef, h]

/-- C8 witness: the concrete width-1 safe list with stored length 0. -/
theorem safe_pop_empty_aborts_witness :
    safePop 1 50 demoEmptyListMem = none ∧
      safeListPopRef 1 50 demoEmptyListMem = none :=
  safe_pop_empty_aborts 1 50 demoEmptyListMem (by decide)

/-! ## C9: frame effect of the safe-list pop -/

/-- C9: on a list with stored length `L > 0`, the safe-list pop writes
`L - 1` at the list's base address and leaves every other memory cell (the
popped element's words and the capacity word included) unchanged; the
element words are only read. -/
theorem safe_pop_frame (w B : Nat) (mem : Nat → Nat) (elems : List Nat)
    (mem' : Nat → Nat) (hL0 : 0 < mem B) (hLp : mem B < bfieldP)
    (h : safePop w B mem = some (elems, mem')) :
    mem' B = mem B - 1 ∧ (∀ a, a ≠ B → mem' a = mem a) ∧
      elems = readElems mem ((B + (w * mem B) % bfieldP + 1) % bfieldP) w := by
  simp only [safePop] at h
  rw [if_neg (by omega)] at h
  simp only [Option.some.injEq, Prod.mk.injEq] at h
  obtain ⟨he, hm⟩ := h
  have hp := bfieldP_pos
  have hdecr : (mem B + (bfieldP - 1)) % bfieldP = mem B - 1 := by
    have h2 : mem B + (bfieldP - 1) = (mem B - 1) + bfieldP := by omega
    rw [h2, Nat.add_mod_right, Nat.mod_eq_of_lt (by omega)]
  refine ⟨?_, ?_, he.symm⟩
  · rw [← hm]
    simp [hdecr]
  · intro a ha
    rw [← hm]
    simp [ha]

/-- C9 witness: popping the concrete 3-element width-5 safe list writes
length 2 at the base address. -/
theorem safe_pop_frame_witness :
    demoPoppedMem 100 = demoSafeListMem 100 - 1 :=
  (safe_pop_frame 5 100 demoSafeListMem demoPoppedElems demoPoppedMem
    (by decide) (by rw [bfieldP_eq]; decide) rfl).1

/-! ## C7: list memory layout (corrected)

The claimed layout `[length, element words...]` with element `i` at
`B + 1 + i·w` holds for the unsafe list implementation, but the safe list
implementation stores its capacity at `B + 1` and its elements from
`B + 2` on: the pop code reads the last element's words down from address
`B + 1 + w·L`, and a 3-element width-5 safe list occupies `B` through
`B + 16`, not `B + 15`. -/

/-- C7 counterexample: popping the concrete 3-element width-5 safe list at
base 100 returns as its first word the value 1116, which is stored at
address 116 = B + 16 and at no address in `B..B + 15` — so the list does
not occupy exactly words `B` through `B + 15`, and element `i` does not sit
at `B + 1 + i·w`. -/
theorem list_layout_counterexample :
    (safePop 5 100 demoSafeListMem).map Prod.fst =
        some [1116, 1115, 1114, 1113, 1112] ∧
      ((List.range 16).all fun i => demoSafeListMem (100 + i) != 1116)
        = true := by
  constructor
  · decide
  · decide

/-- C7 amended: an unsafe list at base `B` consists of the length word at
`B` followed by `cap·w` element words (element `i` at the `w` words from
`B + 1 + i·w`), so `UnsafeNew` allocates exactly `1 + w·cap` words and a
3-element width-5 unsafe list occupies `B..B + 15`; a safe list
additionally stores its capacity at `B + 1` with element `i` at the `w`
words from `B + 2 + i·w`, the pop code reading element `L - 1` from
addresses `B + 1 + w·L` down to `B + 2 + w·(L-1)`, so 3 width-5 elements
occupy `B..B + 16`. -/
theorem list_layout_amended :
    (∀ w cap cell mem, cell ≠ 0 → cell + (w * cap + 1) < 2 ^ 32 →
        unsafeNew w cap cell mem =
          some (cell, cell + (w * cap + 1),
            fun a => if a = cell then 0 else mem a)) ∧
      (∀ B (mem : Nat → Nat) w, 0 < mem B → B + w * mem B + 1 < bfieldP →
        (safePop w B mem).map Prod.fst =
          some ((List.range w).map fun i => mem (B + w * mem B + 1 - i))) ∧
      ((unsafeNew 5 3 1 (fun _ => 0)).map (fun r => (r.1, r.2.1)) =
        some (1, 17)) := by
  refine ⟨?_, ?_, by decide⟩
  · intro w cap cell mem hc hlt
    simp only [unsafeNew]
    have hwcap : (w * cap) % bfieldP = w * cap := by
      apply Nat.mod_eq_of_lt
      rw [bfieldP_eq]
      omega
    have hsize : (w * cap + 1) % bfieldP = w * cap + 1 := by
      apply Nat.mod_eq_of_lt
      rw [bfieldP_eq]
      omega
    rw [hwcap, hsize]
    have hdm := dynMalloc_some_of cell (w * cap + 1) (by omega) (by omega)
      (by rw [if_neg hc]; omega)
    rw [if_neg hc] at hdm
    rw [hdm]
  · intro B mem w hL hlt
    simp only [safePop]
    rw [if_neg (by omega)]
    have hwl : (w * mem B) % bfieldP = w * mem B := by
      apply Nat.mod_eq_of_lt
      omega
    rw [hwl]
    have haddr : (B + w * mem B + 1) % bfieldP = B + w * mem B + 1 := by
      apply Nat.mod_eq_of_lt
      omega
    rw [haddr]
    simp only [Option.map_some']
    have hw : w ≤ w * mem B := Nat.le_mul_of_pos_right w hL
    exact congrArg some
      (readElems_eq_map mem w (B + w * mem B + 1) (by omega) (by omega))

/-- C7 amended witness: the safe-list read addresses instantiated on the
concrete demo list. -/
theorem list_layout_amended_witness :
    (safePop 5 100 demoSafeListMem).map Prod.fst =
      some ((List.range 5).map fun i =>
        demoSafeListMem (100 + 5 * demoSafeListMem 100 + 1 - i)) :=
  list_layout_amended.2.1 100 demoSafeListMem 5 (by decide)
    (by rw [bfieldP_eq]; decide)

/-! ## C6: the oracle does not compare sponge states -/

/-- C6 (code bug): the oracle's complete comparison
(`test_rust_equivalence_given_complete_state`) accepts two final states
that differ in their sponge state: the sponge-comparison helper
`verify_hasher_state_equivalence` would reject them, but the oracle never
invokes it. -/
theorem oracle_sponge_not_compared :
    oracleChecksPass 0 5 rustDemoState tasmDemoState = true ∧
      rustDemoState.finalSponge ≠ tasmDemoState.finalSponge ∧
      verifyHasherStateEquivalence rustDemoState tasmDemoState = false := by
  refine ⟨by decide, by decide, by decide⟩

/-! ## C5: the stack-diff law -/

/-- C5: for every embedded snippet the declared `stack_diff` equals the sum
of declared output widths minus the sum of declared input widths, and every
successful run of the executable snippet embeddings changes the stack
length by exactly the declared `stack_diff`, so `verify_stack_growth`
passes on every oracle run. -/
theorem stack_diff_law :
    (∀ t : DataType,
        checkStackDiffDeclaration (safePopSig t) = true ∧
          checkStackDiffDeclaration (unsafeNewSig t) = true ∧
          checkStackDiffDeclaration (safeLengthSig t) = true ∧
          checkStackDiffDeclaration (readStdinSig t) = true) ∧
      (checkStackDiffDeclaration dynMallocSig = true ∧
        checkStackDiffDeclaration shiftRightU64Sig = true ∧
        checkStackDiffDeclaration isOddSig = true ∧
        checkStackDiffDeclaration getHeightFromDataIndexSig = true ∧
        checkStackDiffDeclaration leftmostAncestorSig = true ∧
        checkStackDiffDeclaration rightChildAndHeightSig = true ∧
        checkStackDiffDeclaration nonLeafNodesLeftSig = true) ∧
      (∀ cell stack res, dynMallocStack cell stack = some res →
        verifyStackGrowth dynMallocSig.stackDiff stack.length res.1.length
          = true) ∧
      (∀ (t : DataType) (mem : Nat → Nat) stack res,
        safePopStack t.get_size mem stack = some res →
        verifyStackGrowth (safePopSig t).stackDiff stack.length
          res.1.length = true) ∧
      (∀ stack stack', shiftRightU64Stack stack = some stack' →
        verifyStackGrowth shiftRightU64Sig.stackDiff stack.length
          stack'.length = true) := by
  refine ⟨?_, by decide, ?_, ?_, ?_⟩
  · intro t
    refine ⟨?_, ?_, ?_, ?_⟩ <;>
      simp [checkStackDiffDeclaration, safePopSig, unsafeNewSig,
        safeLengthSig, readStdinSig, widthSum, DataType.get_size]
  · intro cell stack res h
    cases stack with
    | nil => exact Option.noConfusion h
    | cons size rest =>
      simp only [dynMallocStack] at h
      split at h
      · exact Option.noConfusion h
      next base next' heq =>
        simp only [Option.some.injEq] at h
        rw [← h]
        simp only [verifyStackGrowth, dynMallocSig, beq_iff_eq,
          List.length_cons]
        omega
  · intro t mem stack res h
    cases stack with
    | nil => exact Option.noConfusion h
    | cons b rest =>
      simp only [safePopStack] at h
      split at h
      · exact Option.noConfusion h
      next elems mem2 heq =>
        simp only [Option.some.injEq] at h
        have hlen : elems.length = t.get_size := by
          simp only [safePop] at heq
          split_ifs at heq with h0
          simp only [Option.some.injEq, Prod.mk.injEq] at heq
          rw [← heq.1, readElems_length]
        rw [← h]
        simp only [verifyStackGrowth, safePopSig, beq_iff_eq,
          List.length_cons, List.length_append, List.length_reverse]
        omega
  · intro stack stack' h
    cases stack with
    | nil => exact Option.noConfusion h
    | cons a t1 =>
      cases t1 with
      | nil => exact Option.noConfusion h
      | cons b t2 =>
        cases t2 with
        | nil => exact Option.noConfusion h
        | cons c rest =>
          simp only [shiftRightU64Stack] at h
          split at h
          · exact Option.noConfusion h
          next hi' lo' heq =>
            simp only [Option.some.injEq] at h
            rw [← h]
            simp only [verifyStackGrowth, shiftRightU64Sig, beq_iff_eq,
              List.length_cons]
            omega

/-- C5 witness: the growth checks on a concrete allocator run and a
concrete shift run. -/
theorem stack_diff_law_witness :
    verifyStackGrowth dynMallocSig.stackDiff 1 1 = true ∧
      verifyStackGrowth shiftRightU64Sig.stackDiff 3 2 = true := by
  constructor
  · exact stack_diff_law.2.2.1 0 [5] ([1], 6) (by decide)
  · exact stack_diff_law.2.2.2.2 [0, 0, 0] [0, 0] (by decide)

/-! ## C10: u64 shift right -/

/-- The straight-line shift body computes the two limbs of `v >> s` for
`s ≤ 32` on in-range limbs. -/
theorem shiftRightBody_eq (hi lo s : Nat) (hs : s ≤ 32) (hhi : hi < 2 ^ 32)
    (hlo : lo < 2 ^ 32) :
    shiftRightBody hi lo s =
      ((hi * 2 ^ 32 + lo) / 2 ^ s / 2 ^ 32,
        (hi * 2 ^ 32 + lo) / 2 ^ s % 2 ^ 32) := by
  have hsplit : (2 : Nat) ^ 32 = 2 ^ s * 2 ^ (32 - s) := by
    rw [← pow_add]
    congr 1
    omega
  have hspos : 0 < (2 : Nat) ^ s := pow_pos (by norm_num) s
  have hkpos : 0 < (2 : Nat) ^ (32 - s) := pow_pos (by norm_num) (32 - s)
  have hkle : (2 : Nat) ^ (32 - s) ≤ 2 ^ 32 :=
    Nat.pow_le_pow_right (by norm_num) (by omega)
  have hbound : ((2 : Nat) ^ 32 - 1) * 2 ^ 32 = 18446744069414584320 := by
    norm_num
  have hplo : lo * 2 ^ (32 - s) < bfieldP := by
    have h1 : lo * 2 ^ (32 - s) ≤ (2 ^ 32 - 1) * 2 ^ 32 :=
      Nat.mul_le_mul (by omega) hkle
    rw [bfieldP_eq]
    omega
  have hphi : hi * 2 ^ (32 - s) < bfieldP := by
    have h1 : hi * 2 ^ (32 - s) ≤ (2 ^ 32 - 1) * 2 ^ 32 :=
      Nat.mul_le_mul (by omega) hkle
    rw [bfieldP_eq]
    omega
  have hlow : lo * 2 ^ (32 - s) / 2 ^ 32 = lo / 2 ^ s := by
    rw [hsplit, mul_comm ((2 : Nat) ^ s), ← Nat.div_div_eq_div_mul,
      Nat.mul_div_cancel _ hkpos]
  have hhidiv : hi * 2 ^ (32 - s) / 2 ^ 32 = hi / 2 ^ s := by
    rw [hsplit, mul_comm ((2 : Nat) ^ s), ← Nat.div_div_eq_div_mul,
      Nat.mul_div_cancel _ hkpos]
  have hcarry : hi * 2 ^ (32 - s) % 2 ^ 32 = hi % 2 ^ s * 2 ^ (32 - s) := by
    rw [hsplit]
    exact Nat.mul_mod_mul_right _ _ _
  have hlok : lo / 2 ^ s < 2 ^ (32 - s) := by
    rw [Nat.div_lt_iff_lt_mul hspos]
    calc lo < 2 ^ 32 := hlo
      _ = 2 ^ (32 - s) * 2 ^ s := by rw [← pow_add]; congr 1; omega
  have hsum : hi % 2 ^ s * 2 ^ (32 - s) + lo / 2 ^ s < 2 ^ 32 := by
    have h4 : hi % 2 ^ s * 2 ^ (32 - s) ≤ (2 ^ s - 1) * 2 ^ (32 - s) :=
      Nat.mul_le_mul_right _ (by have := Nat.mod_lt hi hspos; omega)
    have h5 : ((2 : Nat) ^ s - 1) * 2 ^ (32 - s)
        = 2 ^ s * 2 ^ (32 - s) - 2 ^ (32 - s) := by
      rw [Nat.sub_mul, one_mul]
    have h6 : (2 : Nat) ^ (32 - s) ≤ 2 ^ s * 2 ^ (32 - s) :=
      Nat.le_mul_of_pos_left _ hspos
    rw [hsplit]
    omega
  have hdecomp : (hi * 2 ^ 32 + lo) / 2 ^ s
      = 2 ^ 32 * (hi / 2 ^ s) + (hi % 2 ^ s * 2 ^ (32 - s) + lo / 2 ^ s) := by
    have hstep1 : hi * 2 ^ 32 + lo = 2 ^ s * (hi * 2 ^ (32 - s)) + lo := by
      rw [hsplit]
      ring
    rw [hstep1, Nat.mul_add_div hspos]
    have hstep2 : hi * 2 ^ (32 - s)
        = 2 ^ 32 * (hi / 2 ^ s) + hi % 2 ^ s * 2 ^ (32 - s) := by
      conv_lhs => rw [← Nat.div_add_mod hi (2 ^ s)]
      rw [hsplit]
      ring
    rw [hstep2]
    omega
  simp only [shiftRightBody]
  rw [Nat.mod_eq_of_lt hplo, Nat.mod_eq_of_lt hphi, hlow, hhidiv, hcarry,
    Nat.mod_eq_of_lt (a := hi % 2 ^ s * 2 ^ (32 - s) + lo / 2 ^ s)
      (by rw [bfieldP_eq]; omega),
    hdecomp, Nat.mul_add_div (by norm_num), Nat.mul_add_mod,
    Nat.div_eq_of_lt hsum, Nat.mod_eq_of_lt hsum, add_zero]

/-- C10: on in-range limbs, the u64 shift-right snippet aborts for shift
amounts of 64 or more, otherwise leaves exactly the two limbs of
`value >> shift`, and every successful stack-level run shrinks the stack by
exactly one word. -/
theorem shift_right_u64_correct (hi lo shift : Nat) (hhi : hi < 2 ^ 32)
    (hlo : lo < 2 ^ 32) :
    (64 ≤ shift → shiftRightU64 hi lo shift = none) ∧
      (shift < 64 → shiftRightU64 hi lo shift =
        some ((hi * 2 ^ 32 + lo) / 2 ^ shift / 2 ^ 32,
          (hi * 2 ^ 32 + lo) / 2 ^ shift % 2 ^ 32)) ∧
      (∀ stack stack', shiftRightU64Stack stack = some stack' →
        stack.length = stack'.length + 1) := by
  refine ⟨?_, ?_, ?_⟩
  · intro h
    simp only [shiftRightU64]
    rw [if_neg (by omega)]
  · intro h
    simp only [shiftRightU64]
    rw [if_pos h]
    by_cases h32 : 32 < shift
    · rw [if_pos h32]
      rw [shiftRightBody_eq hi lo 32 (le_refl _) hhi hlo]
      have hv32 : (hi * 2 ^ 32 + lo) / 2 ^ 32 = hi := by
        rw [mul_comm, Nat.mul_add_div (by norm_num), Nat.div_eq_of_lt hlo,
          add_zero]
      have hhidiv : hi / 2 ^ 32 = 0 := Nat.div_eq_of_lt hhi
      have hhimod : hi % 2 ^ 32 = hi := Nat.mod_eq_of_lt hhi
      simp only [hv32, hhidiv, hhimod]
      rw [shiftRightBody_eq 0 hi (shift - 32) (by omega) (by norm_num) hhi]
      have hvs : (hi * 2 ^ 32 + lo) / 2 ^ shift
          = (0 * 2 ^ 32 + hi) / 2 ^ (shift - 32) := by
        rw [zero_mul, zero_add,
          show (2 : Nat) ^ shift = 2 ^ 32 * 2 ^ (shift - 32) by
            rw [← pow_add]; congr 1; omega,
          ← Nat.div_div_eq_div_mul, hv32]
      rw [hvs]
    · rw [if_neg h32]
      exact congrArg some (shiftRightBody_eq hi lo shift (by omega) hhi hlo)
  · intro stack stack' h
    cases stack with
    | nil => exact Option.noConfusion h
    | cons a t1 =>
      cases t1 with
      | nil => exact Option.noConfusion h
      | cons b t2 =>
        cases t2 with
        | nil => exact Option.noConfusion h
        | cons c rest =>
          simp only [shiftRightU64Stack] at h
          split at h
          · exact Option.noConfusion h
          next hi' lo' heq =>
            simp only [Option.some.injEq] at h
            rw [← h]
            simp [List.length_cons]

/-- C10 witness: a concrete in-range shift and a concrete out-of-range
shift amount. -/
theorem shift_right_u64_correct_witness :
    shiftRightU64 3 (2 ^ 32 - 4) 2 =
        some ((3 * 2 ^ 32 + (2 ^ 32 - 4)) / 2 ^ 2 / 2 ^ 32,
          (3 * 2 ^ 32 + (2 ^ 32 - 4)) / 2 ^ 2 % 2 ^ 32) ∧
      shiftRightU64 3 7 64 = none :=
  ⟨(shift_right_u64_correct 3 (2 ^ 32 - 4) 2 (by norm_num)
      (by norm_num)).2.1 (by norm_num),
    (shift_right_u64_correct 3 7 64 (by norm_num) (by norm_num)).1
      (le_refl _)⟩

/-! ## Linker lemmas -/

theorem lookupLabel_append (tbl1 tbl2 : List (String × String)) (i : String) :
    lookupLabel (tbl1 ++ tbl2) i =
      match lookupLabel tbl1 i with
      | some l => some l
      | none => lookupLabel tbl2 i := by
  induction tbl1 with
  | nil => simp [lookupLabel]
  | cons p rest ih =>
    obtain ⟨a, b⟩ := p
    by_cases hai : a = i
    · simp [lookupLabel, hai]
    · simp only [List.cons_append, lookupLabel, if_neg hai]
      exact ih

theorem lookupLabel_append_ne_none (tbl1 tbl2 : List (String × String))
    (i : String) (h : lookupLabel tbl1 i ≠ none) :
    lookupLabel (tbl1 ++ tbl2) i ≠ none := by
  rw [lookupLabel_append]
  cases hl : lookupLabel tbl1 i with
  | none => exact absurd hl h
  | some l => simp

theorem lookupLabel_snoc_cases (tbl : List (String × String))
    (j l i : String) (h : lookupLabel (tbl ++ [(j, l)]) i ≠ none) :
    lookupLabel tbl i ≠ none ∨ i = j := by
  rw [lookupLabel_append] at h
  cases hl : lookupLabel tbl i with
  | some v => exact Or.inl (by simp)
  | none =>
    rw [hl] at h
    simp only [lookupLabel] at h
    by_cases hji : j = i
    · exact Or.inr hji.symm
    · rw [if_neg hji] at h
      exact absurd rfl h

theorem lookupLabel_mem (tbl : List (String × String)) (i l : String)
    (h : lookupLabel tbl i = some l) : (i, l) ∈ tbl := by
  induction tbl with
  | nil => exact Option.noConfusion h
  | cons p rest ih =>
    obtain ⟨a, b⟩ := p
    simp only [lookupLabel] at h
    by_cases hai : a = i
    · rw [if_pos hai] at h
      simp only [Option.some.injEq] at h
      subst hai
      rw [h]
      exact List.mem_cons_self _ _
    · rw [if_neg hai] at h
      exact List.mem_cons_of_mem _ (ih h)

theorem lookupLabel_snoc_self (tbl : List (String × String)) (j l : String)
    (h : lookupLabel tbl j = none) :
    lookupLabel (tbl ++ [(j, l)]) j = some l := by
  rw [lookupLabel_append, h]
  simp [lookupLabel]

mutual

/-- Importing only appends to the import table and the body accumulator. -/
theorem libImport_mono : ∀ (st : LibState) (t : SnippetTree),
    (∃ e1, (libImport st t).1.table = st.table ++ e1) ∧
      (∃ e2, (libImport st t).1.bodies = st.bodies ++ e2)
  | st, .node i deps => by
    simp only [libImport]
    split
    · exact ⟨⟨[], by simp⟩, ⟨[], by simp⟩⟩
    · obtain ⟨⟨e1, h1⟩, ⟨e2, h2⟩⟩ :=
        libImportList_mono ⟨st.table ++ [(i, labelOf i)], st.bodies⟩ deps
      exact ⟨⟨(i, labelOf i) :: e1, by rw [h1]; simp⟩,
        ⟨e2 ++ [i], by rw [h2]; simp⟩⟩

theorem libImportList_mono : ∀ (st : LibState) (ts : List SnippetTree),
    (∃ e1, (libImportList st ts).1.table = st.table ++ e1) ∧
      (∃ e2, (libImportList st ts).1.bodies = st.bodies ++ e2)
  | st, [] => by simp [libImportList]
  | st, t :: ts => by
    simp only [libImportList]
    obtain ⟨⟨e1, h1⟩, ⟨e2, h2⟩⟩ := libImport_mono st t
    obtain ⟨⟨f1, g1⟩, ⟨f2, g2⟩⟩ := libImportList_mono (libImport st t).1 ts
    exact ⟨⟨e1 ++ f1, by rw [g1, h1]; simp⟩,
      ⟨e2 ++ f2, by rw [g2, h2]; simp⟩⟩

end

mutual

/-- An identity already in the import table is never re-emitted: any body
of it in the result was already present. -/
theorem libImport_no_reemit : ∀ (st : LibState) (t : SnippetTree)
    (i : String), lookupLabel st.table i ≠ none →
    i ∈ (libImport st t).1.bodies → i ∈ st.bodies
  | st, .node j deps, i => by
    intro hkey hmem
    simp only [libImport] at hmem
    split at hmem
    · exact hmem
    next heq =>
      simp only [List.mem_append, List.mem_singleton] at hmem
      rcases hmem with hmem | hmem
      · have hkey1 : lookupLabel
            ((⟨st.table ++ [(j, labelOf j)], st.bodies⟩ : LibState)).table i
            ≠ none := lookupLabel_append_ne_none _ _ _ hkey
        exact libImportList_no_reemit
          ⟨st.table ++ [(j, labelOf j)], st.bodies⟩ deps i hkey1 hmem
      · subst hmem
        exact absurd heq hkey

theorem libImportList_no_reemit : ∀ (st : LibState) (ts : List SnippetTree)
    (i : String), lookupLabel st.table i ≠ none →
    i ∈ (libImportList st ts).1.bodies → i ∈ st.bodies
  | st, [], i => by
    intro _ hmem
    simpa [libImportList] using hmem
  | st, t :: ts, i => by
    intro hkey hmem
    simp only [libImportList] at hmem
    obtain ⟨⟨e1, h1⟩, _⟩ := libImport_mono st t
    have hkey1 : lookupLabel (libImport st t).1.table i ≠ none := by
      rw [h1]
      exact lookupLabel_append_ne_none _ _ _ hkey
    have hmem1 := libImportList_no_reemit (libImport st t).1 ts i hkey1 hmem
    exact libImport_no_reemit st t i hkey hmem1

end

mutual

/-- Every identity in the resulting import table was either already there
or got its body emitted. -/
theorem libImport_keys_bodied : ∀ (st : LibState) (t : SnippetTree)
    (i : String), lookupLabel (libImport st t).1.table i ≠ none →
    lookupLabel st.table i ≠ none ∨ i ∈ (libImport st t).1.bodies
  | st, .node j deps, i => by
    intro hkey
    simp only [libImport] at hkey ⊢
    split at hkey
    · exact Or.inl hkey
    next heq =>
      have hlist := libImportList_keys_bodied
        ⟨st.table ++ [(j, labelOf j)], st.bodies⟩ deps i hkey
      rcases hlist with hk | hb
      · rcases lookupLabel_snoc_cases st.table j (labelOf j) i hk with
          hk2 | hij
        · exact Or.inl hk2
        · subst hij
          exact Or.inr (by simp)
      · exact Or.inr (by simp [hb])

theorem libImportList_keys_bodied : ∀ (st : LibState)
    (ts : List SnippetTree) (i : String),
    lookupLabel (libImportList st ts).1.table i ≠ none →
    lookupLabel st.table i ≠ none ∨ i ∈ (libImportList st ts).1.bodies
  | st, [], i => by
    intro hkey
    exact Or.inl hkey
  | st, t :: ts, i => by
    intro hkey
    simp only [libImportList] at hkey ⊢
    rcases libImportList_keys_bodied (libImport st t).1 ts i hkey with
      hk | hb
    · rcases libImport_keys_bodied st t i hk with hk2 | hb2
      · exact Or.inl hk2
      · obtain ⟨_, ⟨e2, h2⟩⟩ := libImportList_mono (libImport st t).1 ts
        exact Or.inr (by rw [h2]; exact List.mem_append_left _ hb2)
    · exact Or.inr hb

end

mutual

/-- Importing preserves distinctness of the emitted bodies and keeps every
emitted identity in the import table. -/
theorem libImport_bodiesOk : ∀ (st : LibState) (t : SnippetTree),
    bodiesOk st → bodiesOk (libImport st t).1
  | st, .node j deps => by
    intro hok
    simp only [libImport]
    split
    · exact hok
    next heq =>
      have hok1 : bodiesOk (⟨st.table ++ [(j, labelOf j)], st.bodies⟩ :
          LibState) := by
        refine ⟨hok.1, ?_⟩
        intro b hb
        exact lookupLabel_append_ne_none _ _ _ (hok.2 b hb)
      have hokr := libImportList_bodiesOk
        ⟨st.table ++ [(j, labelOf j)], st.bodies⟩ deps hok1
      have hjlook : lookupLabel
          ((⟨st.table ++ [(j, labelOf j)], st.bodies⟩ : LibState)).table j
          ≠ none := by
        rw [lookupLabel_snoc_self st.table j (labelOf j) heq]
        simp
      have hjnot : j ∉ (libImportList
          ⟨st.table ++ [(j, labelOf j)], st.bodies⟩ deps).1.bodies := by
        intro habs
        have hre := libImportList_no_reemit
          ⟨st.table ++ [(j, labelOf j)], st.bodies⟩ deps j hjlook habs
        exact (hok.2 j hre) heq
      constructor
      · simp only [List.nodup_append, List.nodup_singleton]
        refine ⟨hokr.1, by simp, ?_⟩
        intro a ha hb
        simp only [List.mem_singleton] at hb
        subst hb
        exact hjnot ha
      · intro b hb
        simp only [List.mem_append, List.mem_singleton] at hb
        rcases hb with hb | hb
        · exact hokr.2 b hb
        · rw [hb]
          obtain ⟨⟨e1, h1⟩, _⟩ := libImportList_mono
            ⟨st.table ++ [(j, labelOf j)], st.bodies⟩ deps
          rw [h1]
          exact lookupLabel_append_ne_none _ _ _ hjlook

theorem libImportList_bodiesOk : ∀ (st : LibState) (ts : List SnippetTree),
    bodiesOk st → bodiesOk (libImportList st ts).1
  | st, [] => by
    intro hok
    exact hok
  | st, t :: ts => by
    intro hok
    simp only [libImportList]
    exact libImportList_bodiesOk (libImport st t).1 ts
      (libImport_bodiesOk st t hok)

end

mutual

/-- Under a sound import table, importing keeps the table sound, every
logged import call returns the label derived from its identity and leaves
that identity in the final table, and every emitted body identity appears
in the call log. -/
theorem libImport_log : ∀ (st : LibState) (t : SnippetTree), tableOk st →
    tableOk (libImport st t).1 ∧
      (∀ p ∈ (libImport st t).2.2, p.2 = labelOf p.1 ∧
        lookupLabel (libImport st t).1.table p.1 ≠ none) ∧
      (∀ b ∈ (libImport st t).1.bodies,
        b ∈ st.bodies ∨ b ∈ (libImport st t).2.2.map Prod.fst)
  | st, .node j deps => by
    intro hok
    simp only [libImport]
    split
    next lbl heq =>
      refine ⟨hok, ?_, ?_⟩
      · intro p hp
        simp only [List.mem_singleton] at hp
        subst hp
        exact ⟨hok _ (lookupLabel_mem st.table j lbl heq),
          by rw [heq]; simp⟩
      · intro b hb
        exact Or.inl hb
    next heq =>
      have hok1 : tableOk (⟨st.table ++ [(j, labelOf j)], st.bodies⟩ :
          LibState) := by
        intro p hp
        simp only [List.mem_append, List.mem_singleton] at hp
        rcases hp with hp | hp
        · exact hok p hp
        · rw [hp]
      obtain ⟨hokr, hlogr, hbodr⟩ := libImportList_log
        ⟨st.table ++ [(j, labelOf j)], st.bodies⟩ deps hok1
      have hjlook : lookupLabel
          (libImportList ⟨st.table ++ [(j, labelOf j)], st.bodies⟩
            deps).1.table j ≠ none := by
        obtain ⟨⟨e1, h1⟩, _⟩ := libImportList_mono
          ⟨st.table ++ [(j, labelOf j)], st.bodies⟩ deps
        rw [h1]
        apply lookupLabel_append_ne_none
        rw [lookupLabel_snoc_self st.table j (labelOf j) heq]
        simp
      refine ⟨hokr, ?_, ?_⟩
      · intro p hp
        simp only [List.mem_cons] at hp
        rcases hp with hp | hp
        · subst hp
          exact ⟨rfl, hjlook⟩
        · exact hlogr p hp
      · intro b hb
        simp only [List.mem_append, List.mem_singleton] at hb
        rcases hb with hb | hb
        · rcases hbodr b hb with hb2 | hb2
          · exact Or.inl hb2
          · refine Or.inr ?_
            simp only [List.map_cons, List.mem_cons]
            exact Or.inr hb2
        · subst hb
          exact Or.inr (by simp)

theorem libImportList_log : ∀ (st : LibState) (ts : List SnippetTree),
    tableOk st →
    tableOk (libImportList st ts).1 ∧
      (∀ p ∈ (libImportList st ts).2, p.2 = labelOf p.1 ∧
        lookupLabel (libImportList st ts).1.table p.1 ≠ none) ∧
      (∀ b ∈ (libImportList st ts).1.bodies,
        b ∈ st.bodies ∨ b ∈ (libImportList st ts).2.map Prod.fst)
  | st, [] => by
    intro hok
    refine ⟨hok, ?_, ?_⟩
    · intro p hp
      simp [libImportList] at hp
    · intro b hb
      exact Or.inl hb
  | st, t :: ts => by
    intro hok
    obtain ⟨hok1, hlog1, hbod1⟩ := libImport_log st t hok
    obtain ⟨hok2, hlog2, hbod2⟩ := libImportList_log (libImport st t).1 ts
      hok1
    obtain ⟨⟨e1, h1⟩, _⟩ := libImportList_mono (libImport st t).1 ts
    simp only [libImportList]
    refine ⟨hok2, ?_, ?_⟩
    · intro p hp
      simp only [List.mem_append] at hp
      rcases hp with hp | hp
      · refine ⟨(hlog1 p hp).1, ?_⟩
        rw [h1]
        exact lookupLabel_append_ne_none _ _ _ (hlog1 p hp).2
      · exact hlog2 p hp
    · intro b hb
      rcases hbod2 b hb with hb2 | hb2
      · rcases hbod1 b hb2 with hb3 | hb3
        · exact Or.inl hb3
        · refine Or.inr ?_
          simp only [List.map_append, List.mem_append]
          exact Or.inl hb3
      · refine Or.inr ?_
        simp only [List.map_append, List.mem_append]
        exact Or.inr hb2

end

/-! ## C1: import deduplication -/

/-- C1 (modelled from the spec; `library.rs` is not among the provided
sources): for any forest of import-request trees linked from a fresh
`Library`, every identity requested by some import call (directly or
transitively, any number of times) has exactly one emitted code body,
identities never requested have none, and every import call in the log
returned the label derived from its identity — so N calls for one identity
return N identical labels. -/
theorem library_import_dedup (ts : List SnippetTree) (x : String) :
    ((libImportList emptyLib ts).1.bodies.count x =
        if x ∈ (libImportList emptyLib ts).2.map Prod.fst then 1 else 0) ∧
      ∀ p ∈ (libImportList emptyLib ts).2, p.2 = labelOf p.1 := by
  have hok : tableOk emptyLib := by
    intro p hp
    simp [emptyLib] at hp
  have hbok : bodiesOk emptyLib := by
    refine ⟨List.nodup_nil, ?_⟩
    intro b hb
    simp [emptyLib] at hb
  obtain ⟨_, hlog, hbod⟩ := libImportList_log emptyLib ts hok
  have hnodup : (libImportList emptyLib ts).1.bodies.Nodup :=
    (libImportList_bodiesOk emptyLib ts hbok).1
  constructor
  · by_cases hx : x ∈ (libImportList emptyLib ts).2.map Prod.fst
    · rw [if_pos hx]
      obtain ⟨p, hp, hpx⟩ := List.mem_map.mp hx
      have hkey := (hlog p hp).2
      rw [hpx] at hkey
      have hmem : x ∈ (libImportList emptyLib ts).1.bodies := by
        rcases libImportList_keys_bodied emptyLib ts x hkey with hk | hb
        · exact absurd rfl hk
        · exact hb
      have hle := List.nodup_iff_count_le_one.mp hnodup x
      have hge := List.count_pos_iff.mpr hmem
      omega
    · rw [if_neg hx]
      rw [List.count_eq_zero]
      intro habs
      rcases hbod x habs with hb | hb
      · simp [emptyLib] at hb
      · exact hx hb
  · intro p hp
    exact (hlog p hp).1

/-- C1 witness: the spec's concrete scenario — importing `A` (which imports
`B`) and then `B` directly yields exactly one body for `B`, and the logged
call for `B` returned `B`'s derived label. -/
theorem library_import_dedup_witness :
    (libImportList emptyLib demoForest).1.bodies.count "B" = 1 ∧
      ("B", "B").2 = labelOf ("B", "B").1 := by
  have h := library_import_dedup demoForest "B"
  refine ⟨?_, h.2 ("B", "B") (by decide)⟩
  rw [h.1]
  decide

end TasmLib
